import Mathlib

/-!
# Whisper.cpp: encode, mux and upload pipeline

A shallow embedding of `src/src/Whisper.cpp` (the `USE_AAC_ENCODER` build).

* Bytes are natural numbers, byte buffers are lists.
* The external collaborators (vendor AAC encoder, network client, MP4 muxer)
  are black boxes.  Everything `Transcribe` does to them is appended to one
  trace of events, and what a collaborator answers may depend on the whole
  trace so far and on the arguments of the call.
* Loops that the C++ code does not bound (`while (remainings > 0)`,
  `while (bytes_written < size)`, `while (client.available())`) take a fuel
  argument; `none` means that the fuel ran out before the loop condition
  became false.
* `size_t` is the 32 bit unsigned type of the ESP32.  The only subtraction
  that can wrap inside the modelled code is `remainings -= 44`; every other
  `size_t` value is a length of, or an offset into, a buffer held in memory.
* The multipart boundary (the text in `boundary` after the two `ltoa` calls)
  and the API key are parameters.  Timing and the `log_w` line are left out.
* `aacmp4.hpp` is not among the sources: the muxer is the function
  `Env.write_aac_mp4` from its arguments to the spans it hands to
  `writer.write`, and `DummyWriter` follows the description of the counting
  sink.
-/

namespace Whisper

/-- A `uint8_t` value. -/
abbrev Byte := Nat

def API_HOST : String := "api.openai.com"
def API_PORT : Nat := 443
def API_PATH : String := "/v1/audio/transcriptions"

/-- Number of values of a `size_t` on the target (32 bit). -/
def SIZE_MOD : Nat := 2 ^ 32

/-- Value of `ESP_AUDIO_ERR_OK`. -/
def ESP_AUDIO_ERR_OK : Int := 0

/-- Where `in_frame.buffer` points: into the PCM data at `ptr + input_offset`,
or at the scratch vector `in_buf` (whose contents are recorded). -/
inductive FrameBuf where
  | pcm (input_offset : Nat)
  | in_buf (contents : List Byte)
  deriving DecidableEq, Repr

/-- The `esp_audio_enc_in_frame_t` handed to `esp_aac_enc_process`. -/
structure InFrame where
  buffer : FrameBuf
  len : Nat
  deriving DecidableEq, Repr

/-- What `esp_aac_enc_process` reports: its return code, `encoded_bytes`, and
the bytes it stored at `out_frame.buffer`. -/
structure OutFrame where
  ret : Int
  encoded_bytes : Nat
  buffer : List Byte
  deriving DecidableEq, Repr

/-- The two writers handed to `AACMP4::write_aac_mp4`. -/
inductive Sink where
  | dummy_writer
  | adapter
  deriving DecidableEq, Repr

/-- One observable action of `Transcribe`. -/
inductive Ev where
  /-- The call `client.printf(fmt, arg)` with a `%s` argument. -/
  | printf_s (fmt : String) (arg : String)
  /-- The call `client.printf(fmt, value)` with a `%d` argument. -/
  | printf_d (fmt : String) (value : Nat)
  /-- The call `client.println(s)`. -/
  | println (s : String)
  /-- The call `client.print(s)`. -/
  | print (s : String)
  /-- The call `client.flush()`. -/
  | flush
  /-- The call `client.write(data, size)` and the count it returned. -/
  | write (data : List Byte) (written : Nat)
  /-- A diagnostic `printf` to the console. -/
  | stdout (s : String)
  /-- The call `esp_aac_enc_open` and its return code. -/
  | enc_open (ret : Int)
  /-- The call `esp_aac_enc_process`. -/
  | enc_process (in_frame : InFrame) (out_frame : OutFrame)
  /-- The call `esp_aac_enc_close`. -/
  | enc_close
  /-- The call `AACMP4::write_aac_mp4(sink, chunks, out_buffer, ...)`. -/
  | write_aac_mp4 (sink : Sink) (chunks : List Nat) (out_buffer : List Byte)
      (sample_rate : Nat) (total_samples : Nat) (frame_size : Nat)
  deriving DecidableEq, Repr

/-- The external collaborators of one `Transcribe` call. -/
structure Env where
  /-- Return code of `esp_aac_enc_open`. -/
  enc_open_ret : Int
  /-- The value stored to `in_frame_size` by `esp_aac_enc_get_frame_size`. -/
  in_frame_size : Nat
  /-- The value stored to `out_frame_size` by `esp_aac_enc_get_frame_size`. -/
  out_frame_size : Nat
  /-- The encoder: answer of `esp_aac_enc_process` to the bytes of the input
  frame, given everything that happened before. -/
  enc_process : List Ev → List Byte → OutFrame
  /-- The connection: the count returned by `client.write(data, size)`, given
  everything that happened before. -/
  client_write : List Ev → List Byte → Nat
  /-- The muxer `AACMP4::write_aac_mp4` (in `aacmp4.hpp`), as the sequence of
  spans it passes to `writer.write`, whichever writer it is given. -/
  write_aac_mp4 : List Nat → List Byte → Nat → Nat → Nat → List (List Byte)

/-- The call `v.resize(n)` of a `std::vector<uint8_t>`: cut to `n` elements,
new elements are zero. -/
def resize (v : List Byte) (n : Nat) : List Byte :=
  v.take n ++ List.replicate (n - v.length) 0

/-- The bytes the encoder reads through `in_frame`: `in_frame.len` bytes from
`in_frame.buffer`.  (A range that leaves the PCM buffer yields fewer bytes
here; in C++ it is an out-of-bounds read.) -/
def frameBytes (pcm : List Byte) (fr : InFrame) : List Byte :=
  match fr.buffer with
  | FrameBuf.pcm off => (pcm.drop off).take fr.len
  | FrameBuf.in_buf b => b.take fr.len

/-- Modelled from the spec: `AACMP4::DummyWriter` is declared in `aacmp4.hpp`,
which is missing.  Spec 4.3, SizingSink: write(bytes) increments a running
total; never retains or inspects the bytes; never fails. -/
structure DummyWriter where
  bytes_written : Nat
  deriving DecidableEq, Repr

/-- Modelled from the spec: `DummyWriter::write`, see `DummyWriter`. -/
def DummyWriter.write (w : DummyWriter) (data : List Byte) : DummyWriter :=
  { bytes_written := w.bytes_written + data.length }

/-- The muxer pass over a `DummyWriter`: every span goes to `write`. -/
def DummyWriter.pass (spans : List (List Byte)) (w : DummyWriter) : DummyWriter :=
  spans.foldl DummyWriter.write w

/-- The loop of `ClientStreamAdapter::write(data, size)`, entered with the
current `bytes_written`.  The request of each `client.write` call is
`(data + bytes_written, size - bytes_written)`. -/
def ClientStreamAdapter.loop (client_write : List Ev → List Byte → Nat)
    (data : List Byte) : Nat → Nat → List Ev → Option (List Ev)
  | 0, bytes_written, trace =>
    if bytes_written < data.length then none else some trace
  | fuel + 1, bytes_written, trace =>
    if bytes_written < data.length then
      let written := client_write trace (data.drop bytes_written)
      ClientStreamAdapter.loop client_write data fuel (bytes_written + written)
        (trace ++ [Ev.write (data.drop bytes_written) written])
    else some trace

/-- The method `ClientStreamAdapter::write`. -/
def ClientStreamAdapter.write (client_write : List Ev → List Byte → Nat)
    (fuel : Nat) (trace : List Ev) (data : List Byte) : Option (List Ev) :=
  ClientStreamAdapter.loop client_write data fuel 0 trace

/-- The muxer pass over a `ClientStreamAdapter`. -/
def ClientStreamAdapter.pass (client_write : List Ev → List Byte → Nat)
    (fuel : Nat) : List (List Byte) → List Ev → Option (List Ev)
  | [], trace => some trace
  | span :: rest, trace =>
    match ClientStreamAdapter.write client_write fuel trace span with
    | none => none
    | some trace1 => ClientStreamAdapter.pass client_write fuel rest trace1

/-- The local variables of the encode loop. -/
structure EncState where
  remainings : Nat
  input_offset : Nat
  in_buf : List Byte
  chunks : List Nat
  out_buffer : List Byte
  trace : List Ev
  deriving DecidableEq, Repr

/-- The scratch vector after the two statements of the short-frame branch,
`std::copy(ptr, ptr + remainings, in_buf.begin())` and
`std::fill(in_buf.begin() + remainings, in_buf.end(), 0)`; `pcm` is the memory
at `ptr` after the header skip. -/
def padInBuf (pcm : List Byte) (remainings : Nat) (in_buf : List Byte) : List Byte :=
  let copied := pcm.take remainings ++ in_buf.drop remainings
  copied.take remainings ++ List.replicate (copied.length - remainings) 0

/-- The vector `in_buf` after the statement `if( remainings < in_frame_size )`. -/
def encodeInBuf (E : Env) (pcm : List Byte) (st : EncState) : List Byte :=
  if st.remainings < E.in_frame_size then padInBuf pcm st.remainings st.in_buf
  else st.in_buf

/-- The frame `in_frame` at the `esp_aac_enc_process` call: `in_frame.len` is
`in_frame_size`, `in_frame.buffer` is `ptr + input_offset`, replaced by
`in_buf.data()` in the short-frame branch. -/
def encodeInFrame (E : Env) (pcm : List Byte) (st : EncState) : InFrame :=
  { buffer :=
      if st.remainings < E.in_frame_size then FrameBuf.in_buf (encodeInBuf E pcm st)
      else FrameBuf.pcm st.input_offset,
    len := E.in_frame_size }

/-- The counter `remainings` after the statement
`if( remainings < in_frame_size )`. -/
def encodeRemainings (E : Env) (st : EncState) : Nat :=
  if st.remainings < E.in_frame_size then 0 else st.remainings - E.in_frame_size

/-- What the `esp_aac_enc_process` call of one pass reports. -/
def encodeOutFrame (E : Env) (pcm : List Byte) (st : EncState) : OutFrame :=
  E.enc_process st.trace (frameBytes pcm (encodeInFrame E pcm st))

/-- The vector `out_buffer` after the `esp_aac_enc_process` call of one pass:
it was extended by `out_frame_size` bytes at `out_offset`, its old size, and
the encoder stored into that extension. -/
def encodeOutBuffer (E : Env) (pcm : List Byte) (st : EncState) : List Byte :=
  (resize st.out_buffer (st.out_buffer.length + E.out_frame_size)).take st.out_buffer.length
    ++ resize (encodeOutFrame E pcm st).buffer E.out_frame_size

/-- One pass through the body of the loop `while (remainings > 0)` of
`Transcribe`.  The result is the state after the pass and whether the pass
left the loop through `break`. -/
def encodeBody (E : Env) (pcm : List Byte) (st : EncState) : EncState × Bool :=
  let out_offset := st.out_buffer.length
  let out_frame := encodeOutFrame E pcm st
  let trace1 := st.trace ++ [Ev.enc_process (encodeInFrame E pcm st) out_frame]
  if out_frame.ret ≠ ESP_AUDIO_ERR_OK then
    ({ remainings := encodeRemainings E st, input_offset := st.input_offset,
       in_buf := encodeInBuf E pcm st, chunks := st.chunks,
       out_buffer := encodeOutBuffer E pcm st,
       trace := trace1 ++ [Ev.stdout "audio encoder process failed.\n"] }, true)
  else if out_frame.encoded_bytes = 0 then
    ({ remainings := encodeRemainings E st,
       input_offset := st.input_offset + E.in_frame_size,
       in_buf := encodeInBuf E pcm st, chunks := st.chunks,
       out_buffer := encodeOutBuffer E pcm st,
       trace := trace1 }, false)
  else
    ({ remainings := encodeRemainings E st,
       input_offset := st.input_offset + E.in_frame_size,
       in_buf := encodeInBuf E pcm st,
       chunks := st.chunks ++ [out_frame.encoded_bytes],
       out_buffer := resize (encodeOutBuffer E pcm st) (out_offset + out_frame.encoded_bytes),
       trace := trace1 }, false)

/-- The loop `while (remainings > 0)` of `Transcribe`. -/
def encodeLoop (E : Env) (pcm : List Byte) : Nat → EncState → Option EncState
  | 0, st => if st.remainings > 0 then none else some st
  | fuel + 1, st =>
    if st.remainings > 0 then
      if (encodeBody E pcm st).2 then some (encodeBody E pcm st).1
      else encodeLoop E pcm fuel (encodeBody E pcm st).1
    else some st

/-- The multipart preamble `header`. -/
def header (boundary : String) : String :=
  "--" ++ boundary ++ "\r\n" ++
  "Content-Disposition: form-data; name=\"model\"\r\n\r\nwhisper-1\r\n" ++
  "--" ++ boundary ++ "\r\n" ++
  "Content-Disposition: form-data; name=\"language\"\r\n\r\nja\r\n" ++
  "--" ++ boundary ++ "\r\n" ++
  "Content-Disposition: form-data; name=\"file\"; filename=\"speak.mp4\"\r\n" ++
  "Content-Type: application/octet-stream\r\n\r\n"

/-- The multipart trailer `footer`. -/
def footer (boundary : String) : String :=
  "\r\n--" ++ boundary ++ "--\r\n"

/-- The request line and the fixed headers, sent before anything else. -/
def requestHead (key : String) : List Ev :=
  [ Ev.printf_s "POST %s HTTP/1.1\n" API_PATH,
    Ev.printf_s "Host: %s\n" API_HOST,
    Ev.println "Accept: */*",
    Ev.printf_s "Authorization: Bearer %s\n" key ]

/-- The value of `remainings` after `remainings -= 44` (a `size_t`). -/
def remainingsAfterHeader (size : Nat) : Nat :=
  (size % SIZE_MOD + (SIZE_MOD - 44)) % SIZE_MOD

/-- The state in which the encode loop is entered. -/
def encodeInit (E : Env) (size : Nat) (trace : List Ev) : EncState :=
  { remainings := remainingsAfterHeader size,
    input_offset := 0,
    in_buf := List.replicate E.in_frame_size 0,
    chunks := [],
    out_buffer := [],
    trace := trace }

/-- The events from `Content-Length` up to the blank line. -/
def bodyHead (boundary : String) (content_length : Nat) : List Ev :=
  [ Ev.printf_d "Content-Length: %d\n" content_length,
    Ev.printf_s "Content-Type: multipart/form-data; boundary=%s\n" boundary,
    Ev.println "" ]

/-- The spans `write_aac_mp4(writer, chunks, out_buffer, 16000,
input_offset / 2, in_frame_size / 2)` passes to its writer. -/
def muxSpans (E : Env) (st : EncState) : List (List Byte) :=
  E.write_aac_mp4 st.chunks st.out_buffer 16000 (st.input_offset / 2) (E.in_frame_size / 2)

/-- The event of calling `write_aac_mp4` on `sink` after the encode loop. -/
def muxCall (E : Env) (sink : Sink) (st : EncState) : Ev :=
  Ev.write_aac_mp4 sink st.chunks st.out_buffer 16000 (st.input_offset / 2)
    (E.in_frame_size / 2)

/-- The argument of the `Content-Length` line:
`header.length() + dummy_writer.bytes_written + footer.length()`. -/
def contentLength (E : Env) (boundary : String) (st : EncState) : Nat :=
  (header boundary).utf8ByteSize
    + (DummyWriter.pass (muxSpans E st) { bytes_written := 0 }).bytes_written
    + (footer boundary).utf8ByteSize

/-- The part of `Transcribe` between the end of the encode loop and the end of
the `else` branch: close the encoder, size the container, send the headers
that depend on it, the preamble and the container. -/
def sendContainer (E : Env) (boundary : String) (fuel : Nat) (st : EncState) :
    Option (List Ev) :=
  let trace1 := st.trace ++ [Ev.enc_close, muxCall E Sink.dummy_writer st]
  let trace2 := trace1 ++ bodyHead boundary (contentLength E boundary st) ++
    [Ev.print (header boundary), Ev.flush, muxCall E Sink.adapter st]
  match ClientStreamAdapter.pass E.client_write fuel (muxSpans E st) trace2 with
  | none => none
  | some trace3 => some (trace3 ++ [Ev.flush])

/-- The events after the `USE_AAC_ENCODER` block: flush, trailer, flush. -/
def sendFooter (boundary : String) : List Ev :=
  [Ev.flush, Ev.print (footer boundary), Ev.flush]

/-- The sending half of `Whisper::Transcribe`, from the request line to the
flush after the trailer, on the audio buffer `audio` (`GetBuffer`, with
`GetSize` its length).  The result is the trace of everything done. -/
def Transcribe (E : Env) (boundary : String) (key : String) (audio : List Byte)
    (fuel : Nat) : Option (List Ev) :=
  let trace0 := requestHead key
  -- Skip RIFF WAV header (44 bytes)
  let pcm := audio.drop 44
  let trace1 := trace0 ++ [Ev.enc_open E.enc_open_ret]
  let block : Option (List Ev) :=
    if E.enc_open_ret ≠ 0 then
      some (trace1 ++ [Ev.stdout "Fail to create encoder handle."])
    else
      match encodeLoop E pcm fuel (encodeInit E audio.length trace1) with
      | none => none
      | some st => sendContainer E boundary fuel st
  match block with
  | none => none
  | some trace2 => some (trace2 ++ sendFooter boundary)

/-- The call `client.readStringUntil(terminator)` on the characters still to be
read: the text before the first terminator, and what is left after it (the
terminator is consumed and dropped); without a terminator, everything. -/
def readStringUntil (terminator : Char) : List Char → List Char × List Char
  | [] => ([], [])
  | c :: rest =>
    if c = terminator then ([], rest)
    else
      let r := readStringUntil terminator rest
      (c :: r.1, r.2)

/-- The response loop `while (client.available())` of `Transcribe` on the
characters of a response that is available in full (`available()` is non-zero
as long as characters are left); returns `body`, the text handed to
`deserializeJson`. -/
def readBody : Nat → List Char → Bool → List Char → Option (List Char)
  | 0, stream, _, body => if stream.length ≠ 0 then none else some body
  | fuel + 1, stream, isBody, body =>
    if stream.length ≠ 0 then
      let line := (readStringUntil '\r' stream).1
      let stream1 := (readStringUntil '\r' stream).2
      if isBody then readBody fuel stream1 isBody (body ++ line)
      else if line = ['\n'] then readBody fuel stream1 true body
      else readBody fuel stream1 isBody body
    else some body

/-! ## Observations on traces -/

/-- The bytes the connection took over in one event: the first `written` bytes
of the request of a `client.write` call. -/
def Ev.accepted : Ev → List Byte
  | Ev.write data written => data.take written
  | _ => []

/-- The bytes the connection took over through `client.write`, in order. -/
def acceptedBytes : List Ev → List Byte
  | [] => []
  | e :: rest => e.accepted ++ acceptedBytes rest

/-- Number of body bytes one event puts on the transport: the bytes of the text
of a `print`, the count returned by a `write`.  (`printf` and `println` occur
only before the body.) -/
def Ev.sentBytes : Ev → Nat
  | Ev.print s => s.utf8ByteSize
  | Ev.write _ written => written
  | _ => 0

/-- Number of body bytes a trace puts on the transport. -/
def sentBytes (trace : List Ev) : Nat :=
  (trace.map Ev.sentBytes).sum

/-- Whether an event is a `client.write` call. -/
def Ev.isWrite : Ev → Bool
  | Ev.write _ _ => true
  | _ => false

/-- A connection that takes one byte per `client.write` call. -/
def oneByteClient : List Ev → List Byte → Nat :=
  fun _ req => min 1 req.length

/-- A connection whose `client.write` returns 0 twice and then takes one byte
per call. -/
def flakyClient : List Ev → List Byte → Nat :=
  fun trace _ => if trace.length < 2 then 0 else 1

/-- A connection whose `client.write` returns 0 on every call. -/
def deadClient : List Ev → List Byte → Nat :=
  fun _ _ => 0

/-- A frame that stays inside its buffer, for an encoder frame size `f` and a
PCM buffer of `n` bytes: the frame is `f` bytes long and is either the scratch
vector, which holds `f` bytes, or the range `[input_offset, input_offset + f)`
of the PCM buffer, which ends inside it. -/
def InFrame.inBounds (f n : Nat) (fr : InFrame) : Prop :=
  fr.len = f ∧
  match fr.buffer with
  | FrameBuf.in_buf contents => contents.length = f
  | FrameBuf.pcm input_offset => input_offset + f ≤ n

/-- Whether an event is a call of `esp_aac_enc_process`. -/
def Ev.isProcess : Ev → Bool
  | Ev.enc_process _ _ => true
  | _ => false

/-- Number of `esp_aac_enc_process` calls in a trace. -/
def processCalls (trace : List Ev) : Nat :=
  (trace.filter Ev.isProcess).length

/-! ## Example collaborators -/

/-- An encoder with input frames of `f` bytes and an output buffer of four
bytes that answers every call with one encoded byte; a connection that takes
one byte per call; a muxer that writes the chunk table and then the payload. -/
def steadyEnv (f : Nat) : Env where
  enc_open_ret := 0
  in_frame_size := f
  out_frame_size := 4
  enc_process := fun _ _ => { ret := 0, encoded_bytes := 1, buffer := [170] }
  client_write := oneByteClient
  write_aac_mp4 := fun chunks out_buffer _ _ _ => [chunks, out_buffer]

/-- As `steadyEnv 2`, with an encoder that reports zero encoded bytes on its
first call (and one encoded byte on every later call). -/
def laggingEnv : Env where
  enc_open_ret := 0
  in_frame_size := 2
  out_frame_size := 4
  enc_process := fun trace _ =>
    if processCalls trace = 0 then { ret := 0, encoded_bytes := 0, buffer := [] }
    else { ret := 0, encoded_bytes := 1, buffer := [9] }
  client_write := oneByteClient
  write_aac_mp4 := fun chunks out_buffer _ _ _ => [chunks, out_buffer]

/-- As `steadyEnv 2`, with an encoder that answers its first call with three
encoded bytes and fails on its second call. -/
def failingEnv : Env where
  enc_open_ret := 0
  in_frame_size := 2
  out_frame_size := 4
  enc_process := fun trace _ =>
    if processCalls trace = 0 then { ret := 0, encoded_bytes := 3, buffer := [1, 2, 3] }
    else { ret := -1, encoded_bytes := 0, buffer := [] }
  client_write := oneByteClient
  write_aac_mp4 := fun chunks out_buffer _ _ _ => [chunks, out_buffer]

/-- As `steadyEnv 2`, with an encoder that `esp_aac_enc_open` fails to create. -/
def closedEnv : Env where
  enc_open_ret := -1
  in_frame_size := 2
  out_frame_size := 4
  enc_process := fun _ _ => { ret := 0, encoded_bytes := 1, buffer := [170] }
  client_write := oneByteClient
  write_aac_mp4 := fun chunks out_buffer _ _ _ => [chunks, out_buffer]

/-- An audio buffer: a 44-byte header and the PCM bytes 1, 2, 3. -/
def audio3 : List Byte :=
  List.replicate 44 0 ++ [1, 2, 3]

/-- An audio buffer: a 44-byte header and the PCM bytes 1, 2, 3, 4. -/
def audio4 : List Byte :=
  List.replicate 44 0 ++ [1, 2, 3, 4]

/-- An audio buffer: a 44-byte header and one second of silence, 16000
samples of two bytes. -/
def audio1s : List Byte :=
  List.replicate 44 0 ++ List.replicate 32000 0

/-- A response that is available in full: a status line and header lines, each
ended by CRLF, an empty line (CRLF), and the body. -/
def httpResponse (status : List Char) (headers : List (List Char)) (body : List Char) :
    List Char :=
  status ++ ['\r', '\n'] ++ (headers.map (fun h => h ++ ['\r', '\n'])).flatten
    ++ ['\r', '\n'] ++ body

/-! ## ClientStreamAdapter -/

/-- A connection whose `write` never reports more bytes than it was asked to
write. -/
def Bounded (client_write : List Ev → List Byte → Nat) : Prop :=
  ∀ trace req, client_write trace req ≤ req.length

/-- A connection that on each call takes over at least one and at most the
requested number of bytes. -/
def Progress (client_write : List Ev → List Byte → Nat) : Prop :=
  ∀ trace req, req ≠ [] → 1 ≤ client_write trace req ∧ client_write trace req ≤ req.length

theorem oneByteClient_progress : Progress oneByteClient := by
  intro trace req hreq
  cases req with
  | nil => exact absurd rfl hreq
  | cons a l => simp [oneByteClient]

theorem oneByteClient_bounded : Bounded oneByteClient := by
  intro trace req
  simp [oneByteClient]

theorem acceptedBytes_append (a b : List Ev) :
    acceptedBytes (a ++ b) = acceptedBytes a ++ acceptedBytes b := by
  induction a with
  | nil => rfl
  | cons e rest ih => simp [acceptedBytes, ih]

theorem sentBytes_append (a b : List Ev) :
    sentBytes (a ++ b) = sentBytes a + sentBytes b := by
  simp [sentBytes]

/-- The adapter loop under a connection that makes progress: it ends within
`size - bytes_written` calls, after `client.write` calls only, and the bytes
taken over are the unsent rest of the span. -/
theorem ClientStreamAdapter.loop_progress (client_write : List Ev → List Byte → Nat)
    (hconn : Progress client_write) (data : List Byte) :
    ∀ (fuel bytes_written : Nat) (trace : List Ev),
      bytes_written ≤ data.length → data.length - bytes_written ≤ fuel →
      ∃ evs, ClientStreamAdapter.loop client_write data fuel bytes_written trace
          = some (trace ++ evs)
        ∧ evs.length ≤ data.length - bytes_written
        ∧ (∀ e ∈ evs, e.isWrite = true)
        ∧ acceptedBytes evs = data.drop bytes_written
        ∧ sentBytes evs = data.length - bytes_written := by
  intro fuel
  induction fuel with
  | zero =>
    intro bw trace hle hfuel
    have hbw : ¬ bw < data.length := by omega
    refine ⟨[], ?_, ?_, ?_, ?_, ?_⟩
    · simp [ClientStreamAdapter.loop, hbw]
    · simp
    · simp
    · have : data.length ≤ bw := by omega
      simp [acceptedBytes, List.drop_eq_nil_of_le this]
    · simp [sentBytes]; omega
  | succ fuel ih =>
    intro bw trace hle hfuel
    by_cases hbw : bw < data.length
    · have hne : data.drop bw ≠ [] := by
        intro h
        have := congrArg List.length h
        simp at this
        omega
      obtain ⟨h1, h2⟩ := hconn trace (data.drop bw) hne
      have hlen : (data.drop bw).length = data.length - bw := by simp
      rw [hlen] at h2
      obtain ⟨evs, hrun, hcnt, hall, hacc, hsent⟩ :=
        ih (bw + client_write trace (data.drop bw))
          (trace ++ [Ev.write (data.drop bw) (client_write trace (data.drop bw))])
          (by omega) (by omega)
      refine ⟨Ev.write (data.drop bw) (client_write trace (data.drop bw)) :: evs,
        ?_, ?_, ?_, ?_, ?_⟩
      · simp only [ClientStreamAdapter.loop, hbw, if_true]
        rw [hrun]
        simp
      · simp only [List.length_cons]
        omega
      · intro e he
        rcases List.mem_cons.mp he with rfl | he
        · rfl
        · exact hall e he
      · simp only [acceptedBytes, Ev.accepted, hacc]
        rw [← List.drop_drop, List.take_append_drop]
      · simp only [sentBytes, List.map_cons, List.sum_cons, Ev.sentBytes] at hsent ⊢
        omega
    · refine ⟨[], ?_, ?_, ?_, ?_, ?_⟩
      · simp [ClientStreamAdapter.loop, hbw]
      · simp
      · simp
      · have : data.length ≤ bw := by omega
        simp [acceptedBytes, List.drop_eq_nil_of_le this]
      · simp [sentBytes]; omega

/-- The adapter loop under a connection that never reports more than it was
asked for: if the loop ends, it made `client.write` calls only and the bytes
taken over are the unsent rest of the span. -/
theorem ClientStreamAdapter.loop_bounded (client_write : List Ev → List Byte → Nat)
    (hconn : Bounded client_write) (data : List Byte) :
    ∀ (fuel bytes_written : Nat) (trace res : List Ev),
      bytes_written ≤ data.length →
      ClientStreamAdapter.loop client_write data fuel bytes_written trace = some res →
      ∃ evs, res = trace ++ evs
        ∧ (∀ e ∈ evs, e.isWrite = true)
        ∧ acceptedBytes evs = data.drop bytes_written
        ∧ sentBytes evs = data.length - bytes_written := by
  intro fuel
  induction fuel with
  | zero =>
    intro bw trace res hle h
    by_cases hbw : bw < data.length
    · simp [ClientStreamAdapter.loop, hbw] at h
    · simp only [ClientStreamAdapter.loop, hbw, if_false, Option.some.injEq] at h
      subst h
      have : data.length ≤ bw := by omega
      exact ⟨[], by simp, by simp, by simp [acceptedBytes, List.drop_eq_nil_of_le this],
        by simp [sentBytes]; omega⟩
  | succ fuel ih =>
    intro bw trace res hle h
    by_cases hbw : bw < data.length
    · have h2 := hconn trace (data.drop bw)
      have hlen : (data.drop bw).length = data.length - bw := by simp
      rw [hlen] at h2
      simp only [ClientStreamAdapter.loop, hbw, if_true] at h
      obtain ⟨evs, hres, hall, hacc, hsent⟩ := ih _ _ res (by omega) h
      refine ⟨Ev.write (data.drop bw) (client_write trace (data.drop bw)) :: evs,
        ?_, ?_, ?_, ?_⟩
      · rw [hres]; simp
      · intro e he
        rcases List.mem_cons.mp he with rfl | he
        · rfl
        · exact hall e he
      · simp only [acceptedBytes, Ev.accepted, hacc]
        rw [← List.drop_drop, List.take_append_drop]
      · simp only [sentBytes, List.map_cons, List.sum_cons, Ev.sentBytes] at hsent ⊢
        omega
    · simp only [ClientStreamAdapter.loop, hbw, if_false, Option.some.injEq] at h
      subst h
      have : data.length ≤ bw := by omega
      exact ⟨[], by simp, by simp, by simp [acceptedBytes, List.drop_eq_nil_of_le this],
        by simp [sentBytes]; omega⟩

/-- C6. Under a connection whose `write` takes over, on each call, at least one
and at most the requested number of bytes, `ClientStreamAdapter::write` returns
(any fuel of at least `size` is enough, and it makes at most `size` calls, all
of them `client.write`), and the bytes taken over by the connection,
concatenated in call order, are exactly the span. -/
theorem ClientStreamAdapter.write_delivers_span
    (client_write : List Ev → List Byte → Nat) (hconn : Progress client_write)
    (data : List Byte) (trace : List Ev) (fuel : Nat) (hfuel : data.length ≤ fuel) :
    ∃ evs, ClientStreamAdapter.write client_write fuel trace data = some (trace ++ evs)
      ∧ evs.length ≤ data.length
      ∧ (∀ e ∈ evs, e.isWrite = true)
      ∧ acceptedBytes evs = data := by
  obtain ⟨evs, h1, h2, h3, h4, _⟩ :=
    ClientStreamAdapter.loop_progress client_write hconn data fuel 0 trace
      (Nat.zero_le _) (by simpa using hfuel)
  exact ⟨evs, h1, by simpa using h2, h3, by simpa using h4⟩

theorem ClientStreamAdapter.write_delivers_span_witness :
    ∃ evs, ClientStreamAdapter.write oneByteClient 3 [Ev.flush] [10, 20, 30]
        = some ([Ev.flush] ++ evs)
      ∧ evs.length ≤ [10, 20, 30].length
      ∧ (∀ e ∈ evs, e.isWrite = true)
      ∧ acceptedBytes evs = [10, 20, 30] :=
  ClientStreamAdapter.write_delivers_span oneByteClient oneByteClient_progress
    [10, 20, 30] [Ev.flush] 3 (by decide)

theorem ClientStreamAdapter.loop_dead (data : List Byte) (bytes_written : Nat)
    (h : bytes_written < data.length) :
    ∀ (fuel : Nat) (trace : List Ev),
      ClientStreamAdapter.loop deadClient data fuel bytes_written trace = none := by
  intro fuel
  induction fuel with
  | zero => intro trace; simp [ClientStreamAdapter.loop, h]
  | succ fuel ih =>
    intro trace
    simp only [ClientStreamAdapter.loop, h, if_true, deadClient, Nat.add_zero]
    exact ih _

/-- C8, at the failing input. With a connection whose `write` returns 0, the
adapter never returns from writing a one-byte span: whatever the fuel, the loop
is still running.  What it does after a 0 is visible with a connection that
returns 0 twice and then takes the byte: the same request is issued again. -/
theorem ClientStreamAdapter.write_zero_retries :
    (∀ fuel, ClientStreamAdapter.write deadClient fuel [] [7] = none)
    ∧ ClientStreamAdapter.write flakyClient 3 [] [7]
        = some [Ev.write [7] 0, Ev.write [7] 0, Ev.write [7] 1] := by
  refine ⟨fun fuel => ?_, by decide⟩
  exact ClientStreamAdapter.loop_dead [7] 0 (by decide) fuel []

/-! ## The encode loop -/

theorem encodeLoop_stop (E : Env) (pcm : List Byte) (fuel : Nat) (st : EncState)
    (h : st.remainings = 0) : encodeLoop E pcm fuel st = some st := by
  cases fuel <;> simp [encodeLoop, h]

theorem encodeLoop_succ (E : Env) (pcm : List Byte) (fuel : Nat) (st : EncState)
    (h : 0 < st.remainings) :
    encodeLoop E pcm (fuel + 1) st =
      if (encodeBody E pcm st).2 then some (encodeBody E pcm st).1
      else encodeLoop E pcm fuel (encodeBody E pcm st).1 := by
  simp [encodeLoop, h]

theorem encodeLoop_mono (E : Env) (pcm : List Byte) :
    ∀ (fuel0 fuel : Nat) (st res : EncState),
      encodeLoop E pcm fuel0 st = some res → fuel0 ≤ fuel →
      encodeLoop E pcm fuel st = some res := by
  intro fuel0
  induction fuel0 with
  | zero =>
    intro fuel st res h _
    by_cases hr : 0 < st.remainings
    · simp [encodeLoop, hr] at h
    · have hz : st.remainings = 0 := by omega
      rw [encodeLoop_stop E pcm 0 st hz] at h
      rw [encodeLoop_stop E pcm fuel st hz]
      exact h
  | succ fuel0 ih =>
    intro fuel st res h hle
    by_cases hr : 0 < st.remainings
    · obtain ⟨fuel1, rfl⟩ : ∃ k, fuel = k + 1 := ⟨fuel - 1, by omega⟩
      rw [encodeLoop_succ E pcm fuel0 st hr] at h
      rw [encodeLoop_succ E pcm fuel1 st hr]
      by_cases hb : (encodeBody E pcm st).2 = true
      · simpa [hb] using h
      · simp only [hb] at h ⊢
        exact ih fuel1 _ res h (by omega)
    · have hz : st.remainings = 0 := by omega
      rw [encodeLoop_stop E pcm _ st hz] at h
      rw [encodeLoop_stop E pcm fuel st hz]
      exact h

theorem encodeBody_fail (E : Env) (pcm : List Byte) (st : EncState)
    (h : (encodeOutFrame E pcm st).ret ≠ ESP_AUDIO_ERR_OK) :
    encodeBody E pcm st =
      ({ remainings := encodeRemainings E st, input_offset := st.input_offset,
         in_buf := encodeInBuf E pcm st, chunks := st.chunks,
         out_buffer := encodeOutBuffer E pcm st,
         trace := st.trace ++ [Ev.enc_process (encodeInFrame E pcm st) (encodeOutFrame E pcm st),
           Ev.stdout "audio encoder process failed.\n"] }, true) := by
  simp [encodeBody, h]

theorem encodeBody_zero (E : Env) (pcm : List Byte) (st : EncState)
    (h : (encodeOutFrame E pcm st).ret = ESP_AUDIO_ERR_OK)
    (hz : (encodeOutFrame E pcm st).encoded_bytes = 0) :
    encodeBody E pcm st =
      ({ remainings := encodeRemainings E st,
         input_offset := st.input_offset + E.in_frame_size,
         in_buf := encodeInBuf E pcm st, chunks := st.chunks,
         out_buffer := encodeOutBuffer E pcm st,
         trace := st.trace ++ [Ev.enc_process (encodeInFrame E pcm st) (encodeOutFrame E pcm st)] },
       false) := by
  simp [encodeBody, h, hz]

theorem encodeBody_chunk (E : Env) (pcm : List Byte) (st : EncState)
    (h : (encodeOutFrame E pcm st).ret = ESP_AUDIO_ERR_OK)
    (hz : (encodeOutFrame E pcm st).encoded_bytes ≠ 0) :
    encodeBody E pcm st =
      ({ remainings := encodeRemainings E st,
         input_offset := st.input_offset + E.in_frame_size,
         in_buf := encodeInBuf E pcm st,
         chunks := st.chunks ++ [(encodeOutFrame E pcm st).encoded_bytes],
         out_buffer := resize (encodeOutBuffer E pcm st)
           (st.out_buffer.length + (encodeOutFrame E pcm st).encoded_bytes),
         trace := st.trace ++ [Ev.enc_process (encodeInFrame E pcm st) (encodeOutFrame E pcm st)] },
       false) := by
  simp [encodeBody, h, hz]

/-- The three ways through one pass. -/
theorem encodeBody_cases (E : Env) (pcm : List Byte) (st : EncState) :
    ((encodeOutFrame E pcm st).ret ≠ ESP_AUDIO_ERR_OK)
    ∨ ((encodeOutFrame E pcm st).ret = ESP_AUDIO_ERR_OK
        ∧ (encodeOutFrame E pcm st).encoded_bytes = 0)
    ∨ ((encodeOutFrame E pcm st).ret = ESP_AUDIO_ERR_OK
        ∧ (encodeOutFrame E pcm st).encoded_bytes ≠ 0) := by
  by_cases h : (encodeOutFrame E pcm st).ret = ESP_AUDIO_ERR_OK
  · by_cases hz : (encodeOutFrame E pcm st).encoded_bytes = 0
    · exact Or.inr (Or.inl ⟨h, hz⟩)
    · exact Or.inr (Or.inr ⟨h, hz⟩)
  · exact Or.inl h

theorem encodeBody_remainings (E : Env) (pcm : List Byte) (st : EncState) :
    (encodeBody E pcm st).1.remainings = encodeRemainings E st := by
  rcases encodeBody_cases E pcm st with h | ⟨h, hz⟩ | ⟨h, hz⟩
  · rw [encodeBody_fail E pcm st h]
  · rw [encodeBody_zero E pcm st h hz]
  · rw [encodeBody_chunk E pcm st h hz]

theorem encodeBody_in_buf (E : Env) (pcm : List Byte) (st : EncState) :
    (encodeBody E pcm st).1.in_buf = encodeInBuf E pcm st := by
  rcases encodeBody_cases E pcm st with h | ⟨h, hz⟩ | ⟨h, hz⟩
  · rw [encodeBody_fail E pcm st h]
  · rw [encodeBody_zero E pcm st h hz]
  · rw [encodeBody_chunk E pcm st h hz]

theorem encodeBody_remainings_lt (E : Env) (pcm : List Byte) (st : EncState)
    (hf : 0 < E.in_frame_size) (hr : 0 < st.remainings) :
    (encodeBody E pcm st).1.remainings < st.remainings := by
  rw [encodeBody_remainings, encodeRemainings]
  split_ifs <;> omega

/-- The events one pass appends: the `process` call, and the diagnostic when
the pass leaves the loop. -/
theorem encodeBody_trace (E : Env) (pcm : List Byte) (st : EncState) :
    (encodeBody E pcm st).1.trace =
      st.trace ++ Ev.enc_process (encodeInFrame E pcm st) (encodeOutFrame E pcm st) ::
        (if (encodeBody E pcm st).2 then [Ev.stdout "audio encoder process failed.\n"]
         else []) := by
  rcases encodeBody_cases E pcm st with h | ⟨h, hz⟩ | ⟨h, hz⟩
  · rw [encodeBody_fail E pcm st h]; simp
  · rw [encodeBody_zero E pcm st h hz]; simp
  · rw [encodeBody_chunk E pcm st h hz]; simp

theorem encodeBody_input_offset (E : Env) (pcm : List Byte) (st : EncState)
    (hb : (encodeBody E pcm st).2 = false) :
    (encodeBody E pcm st).1.input_offset = st.input_offset + E.in_frame_size := by
  rcases encodeBody_cases E pcm st with h | ⟨h, hz⟩ | ⟨h, hz⟩
  · rw [encodeBody_fail E pcm st h] at hb; simp at hb
  · rw [encodeBody_zero E pcm st h hz]
  · rw [encodeBody_chunk E pcm st h hz]

theorem padInBuf_length (pcm : List Byte) (remainings : Nat) (in_buf : List Byte)
    (hr : remainings ≤ pcm.length) (hb : remainings ≤ in_buf.length) :
    (padInBuf pcm remainings in_buf).length = in_buf.length := by
  simp only [padInBuf, List.length_append, List.length_take, List.length_drop,
    List.length_replicate]
  omega

/-- The frame of one pass is in bounds when the cursor and the counter add up
to the buffer size. -/
theorem encodeInFrame_inBounds (E : Env) (pcm : List Byte) (st : EncState)
    (hbuf : st.in_buf.length = E.in_frame_size)
    (hinv : st.input_offset + st.remainings = pcm.length) :
    (encodeInFrame E pcm st).inBounds E.in_frame_size pcm.length := by
  by_cases hshort : st.remainings < E.in_frame_size
  · refine ⟨rfl, ?_⟩
    simp only [encodeInFrame, encodeInBuf, hshort, if_true]
    rw [padInBuf_length pcm st.remainings st.in_buf (by omega) (by omega)]
    exact hbuf
  · refine ⟨rfl, ?_⟩
    simp only [encodeInFrame, hshort, if_false]
    omega

theorem encodeInBuf_length (E : Env) (pcm : List Byte) (st : EncState)
    (hbuf : st.in_buf.length = E.in_frame_size)
    (hinv : st.input_offset + st.remainings = pcm.length) :
    (encodeInBuf E pcm st).length = E.in_frame_size := by
  by_cases hshort : st.remainings < E.in_frame_size
  · simp only [encodeInBuf, hshort, if_true]
    rw [padInBuf_length pcm st.remainings st.in_buf (by omega) (by omega)]
    exact hbuf
  · simp only [encodeInBuf, hshort, if_false]
    exact hbuf

/-- After a pass that stays in the loop, the counter is zero or the cursor and
the counter still add up to the buffer size. -/
theorem encodeBody_cursor (E : Env) (pcm : List Byte) (st : EncState)
    (hinv : st.input_offset + st.remainings = pcm.length)
    (hb : (encodeBody E pcm st).2 = false) :
    (encodeBody E pcm st).1.remainings = 0
      ∨ (encodeBody E pcm st).1.input_offset + (encodeBody E pcm st).1.remainings
          = pcm.length := by
  rw [encodeBody_input_offset E pcm st hb, encodeBody_remainings, encodeRemainings]
  by_cases hshort : st.remainings < E.in_frame_size
  · left; simp [hshort]
  · right; simp only [hshort, if_false]; omega

theorem encodeLoop_inBounds (E : Env) (pcm : List Byte) (hf : 0 < E.in_frame_size) :
    ∀ (fuel : Nat) (st : EncState),
      st.in_buf.length = E.in_frame_size →
      (st.remainings = 0 ∨ st.input_offset + st.remainings = pcm.length) →
      st.remainings ≤ fuel →
      ∃ res evs, encodeLoop E pcm fuel st = some res
        ∧ res.trace = st.trace ++ evs
        ∧ ∀ fr o, Ev.enc_process fr o ∈ evs → fr.inBounds E.in_frame_size pcm.length := by
  intro fuel
  induction fuel with
  | zero =>
    intro st _ _ hfuel
    have hz : st.remainings = 0 := by omega
    exact ⟨st, [], encodeLoop_stop E pcm 0 st hz, by simp, by simp⟩
  | succ fuel ih =>
    intro st hbuf hinv hfuel
    by_cases hr : 0 < st.remainings
    · have hinv1 : st.input_offset + st.remainings = pcm.length := by
        rcases hinv with h | h
        · omega
        · exact h
      have hfr := encodeInFrame_inBounds E pcm st hbuf hinv1
      have htr := encodeBody_trace E pcm st
      have hlt := encodeBody_remainings_lt E pcm st hf hr
      rw [encodeLoop_succ E pcm fuel st hr]
      by_cases hb : (encodeBody E pcm st).2 = true
      · simp only [hb, if_true] at htr ⊢
        refine ⟨_, _, rfl, htr, ?_⟩
        intro fr1 o1 hmem
        simp only [List.mem_cons, Ev.enc_process.injEq, List.mem_singleton,
          reduceCtorEq, or_false, List.not_mem_nil] at hmem
        rw [hmem.1]
        exact hfr
      · have hb0 : (encodeBody E pcm st).2 = false := by simpa using hb
        simp only [hb0, Bool.false_eq_true, if_false] at htr ⊢
        have hbuf1 : (encodeBody E pcm st).1.in_buf.length = E.in_frame_size := by
          rw [encodeBody_in_buf]
          exact encodeInBuf_length E pcm st hbuf hinv1
        obtain ⟨res, evs, hrun, hres, hall⟩ :=
          ih (encodeBody E pcm st).1 hbuf1 (encodeBody_cursor E pcm st hinv1 hb0) (by omega)
        refine ⟨res, Ev.enc_process (encodeInFrame E pcm st) (encodeOutFrame E pcm st) :: evs,
          hrun, ?_, ?_⟩
        · rw [hres, htr]
          simp
        · intro fr1 o1 hmem
          rcases List.mem_cons.mp hmem with h | h
          · simp only [Ev.enc_process.injEq] at h
            rw [h.1]
            exact hfr
          · exact hall fr1 o1 h
    · have hz : st.remainings = 0 := by omega
      exact ⟨st, [], encodeLoop_stop E pcm _ st hz, by simp, by simp⟩

theorem remainingsAfterHeader_eq (size : Nat) (h44 : 44 ≤ size) (hlt : size < SIZE_MOD) :
    remainingsAfterHeader size = size - 44 := by
  unfold remainingsAfterHeader SIZE_MOD at *
  omega

theorem frameBytes_length (pcm : List Byte) (f : Nat) (fr : InFrame)
    (h : fr.inBounds f pcm.length) : (frameBytes pcm fr).length = f := by
  obtain ⟨hlen, hbuf⟩ := h
  cases hb : fr.buffer with
  | pcm off =>
    rw [hb] at hbuf
    have hbuf1 : off + f ≤ pcm.length := hbuf
    simp only [frameBytes, hb, hlen, List.length_take, List.length_drop]
    omega
  | in_buf contents =>
    rw [hb] at hbuf
    have hbuf1 : contents.length = f := hbuf
    simp only [frameBytes, hb, hlen, List.length_take]
    omega

/-- C9. For an audio buffer of at least 44 bytes and an encoder frame size
`f > 0`, whatever the encoder answers, the encode loop of `Transcribe` ends, and
every frame it handed to the encoder is `f` bytes long and is either the
`f`-byte scratch vector or a range `[input_offset, input_offset + f)` of the
post-header PCM buffer that ends inside the buffer; the encoder reads exactly
`f` bytes through it. -/
theorem encodeLoop_frames_inBounds (E : Env) (audio : List Byte) (trace : List Ev)
    (fuel : Nat) (hf : 0 < E.in_frame_size) (h44 : 44 ≤ audio.length)
    (hlt : audio.length < SIZE_MOD) (hfuel : audio.length - 44 ≤ fuel) :
    ∃ res evs,
      encodeLoop E (audio.drop 44) fuel (encodeInit E audio.length trace) = some res
      ∧ res.trace = trace ++ evs
      ∧ ∀ fr o, Ev.enc_process fr o ∈ evs →
          fr.inBounds E.in_frame_size (audio.length - 44)
          ∧ (frameBytes (audio.drop 44) fr).length = E.in_frame_size := by
  have hrem := remainingsAfterHeader_eq audio.length h44 hlt
  have hpcm : (audio.drop 44).length = audio.length - 44 := by simp
  obtain ⟨res, evs, hrun, htrace, hall⟩ :=
    encodeLoop_inBounds E (audio.drop 44) hf fuel (encodeInit E audio.length trace)
      (by simp [encodeInit])
      (Or.inr (by simp [encodeInit, hrem]))
      (by simp only [encodeInit, hrem]; exact hfuel)
  refine ⟨res, evs, hrun, htrace, fun fr o hmem => ?_⟩
  have hb := hall fr o hmem
  refine ⟨?_, frameBytes_length _ _ fr hb⟩
  rw [hpcm] at hb
  exact hb

theorem processCalls_append (a b : List Ev) :
    processCalls (a ++ b) = processCalls a + processCalls b := by
  simp [processCalls, List.filter_append]

/-- With an encoder that never fails, the loop ends with `remainings == 0` and
`input_offset` is the buffer size rounded up to whole frames. -/
theorem encodeLoop_input_offset (E : Env) (pcm : List Byte) (hf : 0 < E.in_frame_size)
    (hok : ∀ trace x, (E.enc_process trace x).ret = ESP_AUDIO_ERR_OK) :
    ∀ (fuel : Nat) (st : EncState), st.remainings ≤ fuel →
      ∃ res, encodeLoop E pcm fuel st = some res
        ∧ res.remainings = 0
        ∧ res.input_offset = st.input_offset
            + (st.remainings + E.in_frame_size - 1) / E.in_frame_size * E.in_frame_size := by
  intro fuel
  induction fuel with
  | zero =>
    intro st hfuel
    have hz : st.remainings = 0 := by omega
    refine ⟨st, encodeLoop_stop E pcm 0 st hz, hz, ?_⟩
    have : (st.remainings + E.in_frame_size - 1) / E.in_frame_size = 0 := by
      apply Nat.div_eq_of_lt
      omega
    rw [this]
    simp
  | succ fuel ih =>
    intro st hfuel
    by_cases hr : 0 < st.remainings
    · have hb : (encodeBody E pcm st).2 = false := by
        rcases encodeBody_cases E pcm st with h | ⟨h, hz⟩ | ⟨h, hz⟩
        · exact absurd (hok _ _) h
        · rw [encodeBody_zero E pcm st h hz]
        · rw [encodeBody_chunk E pcm st h hz]
      have hlt := encodeBody_remainings_lt E pcm st hf hr
      obtain ⟨res, hrun, hrem, hoff⟩ := ih (encodeBody E pcm st).1 (by omega)
      refine ⟨res, ?_, hrem, ?_⟩
      · rw [encodeLoop_succ E pcm fuel st hr]
        simp only [hb, Bool.false_eq_true, if_false]
        exact hrun
      · rw [hoff, encodeBody_input_offset E pcm st hb, encodeBody_remainings, encodeRemainings]
        by_cases hshort : st.remainings < E.in_frame_size
        · have h0 : (0 + E.in_frame_size - 1) / E.in_frame_size = 0 := by
            apply Nat.div_eq_of_lt
            omega
          have h1 : (st.remainings + E.in_frame_size - 1) / E.in_frame_size = 1 := by
            apply Nat.div_eq_of_lt_le <;> omega
          simp only [hshort, if_true, h0, h1]
          omega
        · have hsplit : st.remainings + E.in_frame_size - 1
              = (st.remainings - E.in_frame_size + E.in_frame_size - 1) + E.in_frame_size := by
            omega
          simp only [hshort, if_false]
          rw [hsplit, Nat.add_div_right _ hf, Nat.add_mul]
          omega
    · have hz : st.remainings = 0 := by omega
      refine ⟨st, encodeLoop_stop E pcm _ st hz, hz, ?_⟩
      have : (st.remainings + E.in_frame_size - 1) / E.in_frame_size = 0 := by
        apply Nat.div_eq_of_lt
        omega
      rw [this]
      simp

/-- The events the loop appends are `process` calls and the diagnostic. -/
theorem encodeLoop_trace (E : Env) (pcm : List Byte) :
    ∀ (fuel : Nat) (st res : EncState), encodeLoop E pcm fuel st = some res →
      ∃ evs, res.trace = st.trace ++ evs
        ∧ ∀ e ∈ evs, e.isProcess = true
            ∨ e = Ev.stdout "audio encoder process failed.\n" := by
  intro fuel
  induction fuel with
  | zero =>
    intro st res h
    by_cases hr : 0 < st.remainings
    · simp [encodeLoop, hr] at h
    · have hz : st.remainings = 0 := by omega
      rw [encodeLoop_stop E pcm 0 st hz] at h
      cases h
      exact ⟨[], by simp, by simp⟩
  | succ fuel ih =>
    intro st res h
    by_cases hr : 0 < st.remainings
    · rw [encodeLoop_succ E pcm fuel st hr] at h
      have htr := encodeBody_trace E pcm st
      by_cases hb : (encodeBody E pcm st).2 = true
      · simp only [hb, if_true, Option.some.injEq] at h htr
        subst h
        refine ⟨_, htr, ?_⟩
        intro e he
        rcases List.mem_cons.mp he with rfl | he
        · exact Or.inl rfl
        · exact Or.inr (by simpa using he)
      · have hb0 : (encodeBody E pcm st).2 = false := by simpa using hb
        simp only [hb0, Bool.false_eq_true, if_false] at h htr
        obtain ⟨evs, hres, hall⟩ := ih _ res h
        refine ⟨Ev.enc_process (encodeInFrame E pcm st) (encodeOutFrame E pcm st) :: evs,
          ?_, ?_⟩
        · rw [hres, htr]
          simp
        · intro e he
          rcases List.mem_cons.mp he with rfl | he
          · exact Or.inl rfl
          · exact hall e he
    · have hz : st.remainings = 0 := by omega
      rw [encodeLoop_stop E pcm _ st hz] at h
      cases h
      exact ⟨[], by simp, by simp⟩

/-- The loop with an encoder that answers its first `N - 1` calls with encoded
bytes and fails on call `N`, from a state with `k + 1` calls to go and more
than `k` frames of input left. -/
theorem encodeLoop_fail_at (E : Env) (pcm : List Byte) (N : Nat)
    (hok : ∀ trace x, processCalls trace + 1 < N →
      (E.enc_process trace x).ret = ESP_AUDIO_ERR_OK
        ∧ (E.enc_process trace x).encoded_bytes ≠ 0)
    (hfail : ∀ trace x, processCalls trace + 1 = N →
      (E.enc_process trace x).ret ≠ ESP_AUDIO_ERR_OK) :
    ∀ (k : Nat) (st : EncState),
      processCalls st.trace + k + 1 = N → k * E.in_frame_size < st.remainings →
      ∃ (calls : List (InFrame × OutFrame)) (last : InFrame × OutFrame) (res : EncState),
        (∀ fuel, k + 1 ≤ fuel → encodeLoop E pcm fuel st = some res)
        ∧ calls.length = k
        ∧ (∀ c ∈ calls, c.2.ret = ESP_AUDIO_ERR_OK ∧ c.2.encoded_bytes ≠ 0)
        ∧ last.2.ret ≠ ESP_AUDIO_ERR_OK
        ∧ res.trace = st.trace ++ calls.map (fun c => Ev.enc_process c.1 c.2)
            ++ [Ev.enc_process last.1 last.2, Ev.stdout "audio encoder process failed.\n"]
        ∧ res.chunks = st.chunks ++ calls.map (fun c => c.2.encoded_bytes)
        ∧ res.input_offset = st.input_offset + k * E.in_frame_size := by
  intro k
  induction k with
  | zero =>
    intro st hcalls hrem
    have hr : 0 < st.remainings := by omega
    have hret : (encodeOutFrame E pcm st).ret ≠ ESP_AUDIO_ERR_OK :=
      hfail st.trace _ (by omega)
    refine ⟨[], (encodeInFrame E pcm st, encodeOutFrame E pcm st), (encodeBody E pcm st).1,
      ?_, rfl, by simp, hret, ?_, ?_, ?_⟩
    · intro fuel hfuel
      obtain ⟨m, rfl⟩ : ∃ m, fuel = m + 1 := ⟨fuel - 1, by omega⟩
      rw [encodeLoop_succ E pcm m st hr, encodeBody_fail E pcm st hret]
      simp
    · rw [encodeBody_fail E pcm st hret]
      simp
    · rw [encodeBody_fail E pcm st hret]
      simp
    · rw [encodeBody_fail E pcm st hret]
      simp
  | succ k ih =>
    intro st hcalls hrem
    rw [Nat.succ_mul] at hrem
    have hr : 0 < st.remainings := by omega
    obtain ⟨hret, hbytes⟩ := hok st.trace (frameBytes pcm (encodeInFrame E pcm st)) (by omega)
    have hbody := encodeBody_chunk E pcm st hret hbytes
    have hshort : ¬ st.remainings < E.in_frame_size := by omega
    obtain ⟨calls, last, res, hrun, hlen, hall, hlast, htrace, hchunks, hoff⟩ :=
      ih (encodeBody E pcm st).1
        (by
          rw [hbody]
          show processCalls (st.trace
            ++ [Ev.enc_process (encodeInFrame E pcm st) (encodeOutFrame E pcm st)]) + k + 1 = N
          have h1 : processCalls
              [Ev.enc_process (encodeInFrame E pcm st) (encodeOutFrame E pcm st)] = 1 := rfl
          rw [processCalls_append, h1]
          omega)
        (by rw [hbody]; simp only [encodeRemainings, hshort, if_false]; omega)
    refine ⟨(encodeInFrame E pcm st, encodeOutFrame E pcm st) :: calls, last, res,
      ?_, by simp [hlen], ?_, hlast, ?_, ?_, ?_⟩
    · intro fuel hfuel
      obtain ⟨m, rfl⟩ : ∃ m, fuel = m + 1 := ⟨fuel - 1, by omega⟩
      rw [encodeLoop_succ E pcm m st hr]
      have hb : (encodeBody E pcm st).2 = false := by rw [hbody]
      simp only [hb, Bool.false_eq_true, if_false]
      exact hrun m (by omega)
    · intro c hc
      rcases List.mem_cons.mp hc with rfl | hc
      · exact ⟨hret, hbytes⟩
      · exact hall c hc
    · rw [htrace, hbody]
      simp
    · rw [hchunks, hbody]
      simp
    · rw [hoff, hbody, Nat.succ_mul]
      simp only
      omega

/-! ## The two muxer passes and the body of the request -/

theorem DummyWriter.pass_bytes_written (spans : List (List Byte)) :
    ∀ w : DummyWriter,
      (DummyWriter.pass spans w).bytes_written
        = w.bytes_written + (spans.map List.length).sum := by
  induction spans with
  | nil => intro w; simp [DummyWriter.pass]
  | cons span rest ih =>
    intro w
    have := ih (DummyWriter.write w span)
    simp only [DummyWriter.pass, List.foldl_cons] at this ⊢
    rw [this]
    simp only [DummyWriter.write, List.map_cons, List.sum_cons]
    omega

/-- The adapter pass under a connection that makes progress: it returns, it
only calls `client.write`, and the connection takes over the spans in order. -/
theorem ClientStreamAdapter.pass_progress (client_write : List Ev → List Byte → Nat)
    (hconn : Progress client_write) (fuel : Nat) :
    ∀ (spans : List (List Byte)) (trace : List Ev),
      (∀ span ∈ spans, span.length ≤ fuel) →
      ∃ evs, ClientStreamAdapter.pass client_write fuel spans trace = some (trace ++ evs)
        ∧ (∀ e ∈ evs, e.isWrite = true)
        ∧ acceptedBytes evs = spans.flatten
        ∧ sentBytes evs = (spans.map List.length).sum := by
  intro spans
  induction spans with
  | nil =>
    intro trace _
    exact ⟨[], by simp [ClientStreamAdapter.pass], by simp, by simp [acceptedBytes],
      by simp [sentBytes]⟩
  | cons span rest ih =>
    intro trace hfuel
    obtain ⟨evs1, hrun1, _, hall1, hacc1, hsent1⟩ :=
      ClientStreamAdapter.loop_progress client_write hconn span fuel 0 trace
        (Nat.zero_le _) (by simpa using hfuel span (List.mem_cons_self _ _))
    obtain ⟨evs2, hrun2, hall2, hacc2, hsent2⟩ :=
      ih (trace ++ evs1) (fun s hs => hfuel s (List.mem_cons_of_mem _ hs))
    refine ⟨evs1 ++ evs2, ?_, ?_, ?_, ?_⟩
    · simp only [ClientStreamAdapter.pass, ClientStreamAdapter.write, hrun1, hrun2,
        List.append_assoc]
    · intro e he
      rcases List.mem_append.mp he with h | h
      · exact hall1 e h
      · exact hall2 e h
    · rw [acceptedBytes_append, hacc1, hacc2]
      simp
    · rw [sentBytes_append, hsent1, hsent2]
      simp

/-- The adapter pass under a connection that never reports more than it was
asked for: if the pass ends, the connection took over the spans in order. -/
theorem ClientStreamAdapter.pass_bounded (client_write : List Ev → List Byte → Nat)
    (hconn : Bounded client_write) (fuel : Nat) :
    ∀ (spans : List (List Byte)) (trace res : List Ev),
      ClientStreamAdapter.pass client_write fuel spans trace = some res →
      ∃ evs, res = trace ++ evs
        ∧ (∀ e ∈ evs, e.isWrite = true)
        ∧ acceptedBytes evs = spans.flatten
        ∧ sentBytes evs = (spans.map List.length).sum := by
  intro spans
  induction spans with
  | nil =>
    intro trace res h
    simp only [ClientStreamAdapter.pass, Option.some.injEq] at h
    subst h
    exact ⟨[], by simp, by simp, by simp [acceptedBytes], by simp [sentBytes]⟩
  | cons span rest ih =>
    intro trace res h
    cases hw : ClientStreamAdapter.write client_write fuel trace span with
    | none => simp [ClientStreamAdapter.pass, hw] at h
    | some trace1 =>
      simp only [ClientStreamAdapter.pass, hw] at h
      obtain ⟨evs1, hres1, hall1, hacc1, hsent1⟩ :=
        ClientStreamAdapter.loop_bounded client_write hconn span fuel 0 trace trace1
          (Nat.zero_le _) hw
      obtain ⟨evs2, hres2, hall2, hacc2, hsent2⟩ := ih trace1 res h
      refine ⟨evs1 ++ evs2, ?_, ?_, ?_, ?_⟩
      · rw [hres2, hres1, List.append_assoc]
      · intro e he
        rcases List.mem_append.mp he with h1 | h1
        · exact hall1 e h1
        · exact hall2 e h1
      · rw [acceptedBytes_append, hacc1, hacc2]
        simp
      · rw [sentBytes_append, hsent1, hsent2]
        simp

theorem length_le_sum_of_mem (spans : List (List Byte)) :
    ∀ span ∈ spans, span.length ≤ (spans.map List.length).sum := by
  induction spans with
  | nil => intro span h; cases h
  | cons a rest ih =>
    intro span h
    simp only [List.map_cons, List.sum_cons]
    rcases List.mem_cons.mp h with rfl | h
    · omega
    · have := ih span h
      omega

/-- The events of `Transcribe` after the encode loop, given the `client.write`
calls of the adapter pass. -/
theorem Transcribe_of_encodeLoop (E : Env) (boundary key : String) (audio : List Byte)
    (fuel0 : Nat) (st : EncState) (hopen : E.enc_open_ret = 0)
    (hloop : encodeLoop E (audio.drop 44) fuel0
      (encodeInit E audio.length (requestHead key ++ [Ev.enc_open E.enc_open_ret])) = some st)
    (hconn : Progress E.client_write) :
    ∃ N, ∀ fuel, N ≤ fuel → ∃ writes,
      Transcribe E boundary key audio fuel
        = some (st.trace ++ [Ev.enc_close, muxCall E Sink.dummy_writer st]
            ++ bodyHead boundary (contentLength E boundary st)
            ++ ([Ev.print (header boundary), Ev.flush, muxCall E Sink.adapter st]
                ++ writes ++ [Ev.flush] ++ sendFooter boundary))
      ∧ (∀ e ∈ writes, e.isWrite = true)
      ∧ acceptedBytes writes = (muxSpans E st).flatten
      ∧ sentBytes writes = ((muxSpans E st).map List.length).sum := by
  refine ⟨fuel0 + ((muxSpans E st).map List.length).sum, ?_⟩
  intro fuel hfuel
  have hloop1 := encodeLoop_mono E (audio.drop 44) fuel0 fuel _ st hloop (by omega)
  obtain ⟨writes, hrun, hall, hacc, hsent⟩ :=
    ClientStreamAdapter.pass_progress E.client_write hconn fuel (muxSpans E st)
      (st.trace ++ [Ev.enc_close, muxCall E Sink.dummy_writer st]
        ++ bodyHead boundary (contentLength E boundary st)
        ++ [Ev.print (header boundary), Ev.flush, muxCall E Sink.adapter st])
      (fun s hs => by
        have := length_le_sum_of_mem (muxSpans E st) s hs
        omega)
  refine ⟨writes, ?_, hall, hacc, hsent⟩
  have hne : ¬ (E.enc_open_ret ≠ 0) := by simp [hopen]
  simp only [Transcribe, hne, if_false, hloop1, sendContainer, hrun]
  simp

/-- A completed `Transcribe` call with an encoder that opened: the encode loop
ended, and the trace is that of the loop followed by the events of
`sendContainer` and `sendFooter`. -/
theorem Transcribe_sound (E : Env) (boundary key : String) (audio : List Byte)
    (fuel : Nat) (trace : List Ev) (hopen : E.enc_open_ret = 0)
    (hconn : Bounded E.client_write)
    (h : Transcribe E boundary key audio fuel = some trace) :
    ∃ st writes,
      encodeLoop E (audio.drop 44) fuel
        (encodeInit E audio.length (requestHead key ++ [Ev.enc_open E.enc_open_ret])) = some st
      ∧ trace = st.trace ++ [Ev.enc_close, muxCall E Sink.dummy_writer st]
          ++ bodyHead boundary (contentLength E boundary st)
          ++ ([Ev.print (header boundary), Ev.flush, muxCall E Sink.adapter st]
              ++ writes ++ [Ev.flush] ++ sendFooter boundary)
      ∧ (∀ e ∈ writes, e.isWrite = true)
      ∧ acceptedBytes writes = (muxSpans E st).flatten
      ∧ sentBytes writes = ((muxSpans E st).map List.length).sum := by
  have hne : ¬ (E.enc_open_ret ≠ 0) := by simp [hopen]
  cases hloop : encodeLoop E (audio.drop 44) fuel
      (encodeInit E audio.length (requestHead key ++ [Ev.enc_open E.enc_open_ret])) with
  | none => simp [Transcribe, hne, hloop] at h
  | some st =>
    cases hpass : ClientStreamAdapter.pass E.client_write fuel (muxSpans E st)
        (st.trace ++ [Ev.enc_close, muxCall E Sink.dummy_writer st]
          ++ bodyHead boundary (contentLength E boundary st)
          ++ [Ev.print (header boundary), Ev.flush, muxCall E Sink.adapter st]) with
    | none => simp only [Transcribe, hne, if_false, hloop, sendContainer, hpass,
        reduceCtorEq] at h
    | some trace3 =>
      obtain ⟨writes, hres, hall, hacc, hsent⟩ :=
        ClientStreamAdapter.pass_bounded E.client_write hconn fuel _ _ _ hpass
      simp only [Transcribe, hne, if_false, hloop, sendContainer, hpass,
        Option.some.injEq] at h
      refine ⟨st, writes, rfl, ?_, hall, hacc, hsent⟩
      rw [← h, hres]
      simp

theorem println_not_mem_encodeLoop_trace (E : Env) (pcm : List Byte) (key : String)
    (size fuel : Nat) (st : EncState)
    (hloop : encodeLoop E pcm fuel
      (encodeInit E size (requestHead key ++ [Ev.enc_open E.enc_open_ret])) = some st) :
    Ev.println "" ∉ st.trace := by
  obtain ⟨evs, htr, hall⟩ := encodeLoop_trace E pcm fuel _ st hloop
  rw [htr]
  intro hmem
  rcases List.mem_append.mp hmem with h | h
  · simp [encodeInit, requestHead] at h
  · rcases hall _ h with h1 | h1
    · simp [Ev.isProcess] at h1
    · simp at h1

/-- C1. Let the encoder open, let the muxer be any function from its arguments
to the spans it writes, and let the connection never report more bytes than it
was asked to write. Whenever `Transcribe` completes, the encode loop has ended
with a chunk table `st`, and in the trace
* the value of the `Content-Length` line is `len(header)` plus the count the
  `DummyWriter` pass accumulated plus `len(footer)`;
* the events after the blank line (the first `println("")`) are the preamble,
  the `client.write` calls of the `ClientStreamAdapter` pass, which hand the
  container to the connection, and the trailer, and the bytes they put on the
  transport number exactly the `Content-Length` value.
`Transcribe` does complete, for every large enough fuel, when the encode loop
ends and every `write` of the connection takes over at least one byte. -/
theorem Transcribe_content_length (E : Env) (boundary key : String) (audio : List Byte)
    (hopen : E.enc_open_ret = 0) (hconn : Bounded E.client_write) :
    (∀ fuel trace, Transcribe E boundary key audio fuel = some trace →
      ∃ st pre writes,
        encodeLoop E (audio.drop 44) fuel
          (encodeInit E audio.length (requestHead key ++ [Ev.enc_open E.enc_open_ret]))
          = some st
        ∧ trace = pre
            ++ bodyHead boundary
                ((header boundary).utf8ByteSize
                  + (DummyWriter.pass (muxSpans E st) { bytes_written := 0 }).bytes_written
                  + (footer boundary).utf8ByteSize)
            ++ ([Ev.print (header boundary), Ev.flush, muxCall E Sink.adapter st]
                ++ writes ++ [Ev.flush] ++ sendFooter boundary)
        ∧ Ev.println "" ∉ pre
        ∧ (∀ e ∈ writes, e.isWrite = true)
        ∧ acceptedBytes writes = (muxSpans E st).flatten
        ∧ sentBytes ([Ev.print (header boundary), Ev.flush, muxCall E Sink.adapter st]
              ++ writes ++ [Ev.flush] ++ sendFooter boundary)
            = (header boundary).utf8ByteSize
              + (DummyWriter.pass (muxSpans E st) { bytes_written := 0 }).bytes_written
              + (footer boundary).utf8ByteSize)
    ∧ (∀ fuel0 st,
        encodeLoop E (audio.drop 44) fuel0
          (encodeInit E audio.length (requestHead key ++ [Ev.enc_open E.enc_open_ret]))
          = some st →
        Progress E.client_write →
        ∃ N, ∀ fuel, N ≤ fuel → (Transcribe E boundary key audio fuel).isSome = true) := by
  constructor
  · intro fuel trace h
    obtain ⟨st, writes, hloop, htrace, hall, hacc, hsent⟩ :=
      Transcribe_sound E boundary key audio fuel trace hopen hconn h
    refine ⟨st, st.trace ++ [Ev.enc_close, muxCall E Sink.dummy_writer st], writes, hloop,
      htrace, ?_, hall, hacc, ?_⟩
    · intro hmem
      rcases List.mem_append.mp hmem with h1 | h1
      · exact println_not_mem_encodeLoop_trace E _ key _ fuel st hloop h1
      · simp [muxCall] at h1
    · have hd := DummyWriter.pass_bytes_written (muxSpans E st) { bytes_written := 0 }
      simp only [sentBytes_append, hsent, hd]
      simp [sentBytes, Ev.sentBytes, muxCall, sendFooter]
  · intro fuel0 st hloop hprog
    obtain ⟨N, hN⟩ := Transcribe_of_encodeLoop E boundary key audio fuel0 st hopen hloop hprog
    refine ⟨N, fun fuel hfuel => ?_⟩
    obtain ⟨writes, hrun, _⟩ := hN fuel hfuel
    rw [hrun]
    rfl

/-- C5. If the encoder fails on its `N`-th `process` call, having answered the
first `N - 1` calls with a non-zero number of encoded bytes (and the buffer
holds more than `N - 1` frames, so that call `N` is made), then the encode loop
ends right after the failing call, `chunks` holds the `N - 1` reported lengths
in call order, `input_offset` is `(N - 1) * in_frame_size`, and `Transcribe`
goes on as after a complete encode: it closes the encoder, runs the
`DummyWriter` pass and the `ClientStreamAdapter` pass on that table and sends
the trailer. The only sign of the failure is the console diagnostic. -/
theorem Transcribe_encoder_fails_at (E : Env) (boundary key : String) (audio : List Byte)
    (N : Nat) (hopen : E.enc_open_ret = 0) (hN : 1 ≤ N)
    (hreach : (N - 1) * E.in_frame_size < remainingsAfterHeader audio.length)
    (hok : ∀ trace x, processCalls trace + 1 < N →
      (E.enc_process trace x).ret = ESP_AUDIO_ERR_OK
        ∧ (E.enc_process trace x).encoded_bytes ≠ 0)
    (hfail : ∀ trace x, processCalls trace + 1 = N →
      (E.enc_process trace x).ret ≠ ESP_AUDIO_ERR_OK)
    (hconn : Progress E.client_write) :
    ∃ (calls : List (InFrame × OutFrame)) (last : InFrame × OutFrame) (st : EncState),
      calls.length = N - 1
      ∧ (∀ c ∈ calls, c.2.ret = ESP_AUDIO_ERR_OK ∧ c.2.encoded_bytes ≠ 0)
      ∧ last.2.ret ≠ ESP_AUDIO_ERR_OK
      ∧ (∀ fuel, N ≤ fuel → encodeLoop E (audio.drop 44) fuel
            (encodeInit E audio.length (requestHead key ++ [Ev.enc_open E.enc_open_ret]))
          = some st)
      ∧ st.trace = requestHead key ++ [Ev.enc_open E.enc_open_ret]
          ++ calls.map (fun c => Ev.enc_process c.1 c.2)
          ++ [Ev.enc_process last.1 last.2, Ev.stdout "audio encoder process failed.\n"]
      ∧ st.chunks = calls.map (fun c => c.2.encoded_bytes)
      ∧ st.input_offset = (N - 1) * E.in_frame_size
      ∧ ∃ M, ∀ fuel, M ≤ fuel → ∃ writes,
          Transcribe E boundary key audio fuel
            = some (st.trace ++ [Ev.enc_close, muxCall E Sink.dummy_writer st]
                ++ bodyHead boundary (contentLength E boundary st)
                ++ ([Ev.print (header boundary), Ev.flush, muxCall E Sink.adapter st]
                    ++ writes ++ [Ev.flush] ++ sendFooter boundary))
          ∧ (∀ e ∈ writes, e.isWrite = true)
          ∧ acceptedBytes writes = (muxSpans E st).flatten := by
  obtain ⟨calls, last, st, hrun, hlen, hall, hlast, htrace, hchunks, hoff⟩ :=
    encodeLoop_fail_at E (audio.drop 44) N hok hfail (N - 1)
      (encodeInit E audio.length (requestHead key ++ [Ev.enc_open E.enc_open_ret]))
      (by
        have h0 : processCalls (requestHead key ++ [Ev.enc_open E.enc_open_ret]) = 0 := rfl
        show processCalls (requestHead key ++ [Ev.enc_open E.enc_open_ret]) + (N - 1) + 1 = N
        omega)
      hreach
  have hrun1 : ∀ fuel, N ≤ fuel → encodeLoop E (audio.drop 44) fuel
      (encodeInit E audio.length (requestHead key ++ [Ev.enc_open E.enc_open_ret]))
        = some st := fun fuel hfuel => hrun fuel (by omega)
  refine ⟨calls, last, st, hlen, hall, hlast, hrun1, ?_, ?_, ?_, ?_⟩
  · rw [htrace]; rfl
  · rw [hchunks]; rfl
  · rw [hoff]; simp [encodeInit]
  · obtain ⟨M, hM⟩ :=
      Transcribe_of_encodeLoop E boundary key audio N st hopen (hrun1 N (le_refl N)) hconn
    refine ⟨M, fun fuel hfuel => ?_⟩
    obtain ⟨writes, h1, h2, h3, _⟩ := hM fuel hfuel
    exact ⟨writes, h1, h2, h3⟩

/-! ## Runs on concrete inputs -/

/-- C2, at two failing inputs (four PCM bytes, frames of two bytes, an output
buffer of four bytes per call). When the first `process` call reports zero
encoded bytes, the four bytes by which `out_buffer` was extended stay in it:
the loop ends with `chunks = [1]` and five payload bytes, the frame's byte at
offset 4. When the second `process` call fails, the extension made for it
stays: `chunks = [3]` and seven payload bytes. -/
theorem encodeLoop_out_buffer_keeps_extension :
    (∃ st, encodeLoop laggingEnv (audio4.drop 44) 2 (encodeInit laggingEnv audio4.length [])
        = some st
      ∧ st.chunks = [1] ∧ st.out_buffer = [0, 0, 0, 0, 9]
      ∧ st.chunks.sum ≠ st.out_buffer.length)
    ∧ (∃ st, encodeLoop failingEnv (audio4.drop 44) 2 (encodeInit failingEnv audio4.length [])
        = some st
      ∧ st.chunks = [3] ∧ st.out_buffer = [1, 2, 3, 0, 0, 0, 0]
      ∧ st.chunks.sum ≠ st.out_buffer.length) := by
  refine ⟨⟨_, rfl, ?_⟩, ⟨_, rfl, ?_⟩⟩ <;> decide

/-- C3, at the failing input: PCM bytes 1, 2, 3 and frames of two bytes. The
second and last frame is the scratch vector, two bytes long, and holds the
first PCM byte and a zero: 1, 0, where the unencoded rest of the buffer is the
byte 3. -/
theorem encodeLoop_short_frame_copies_start :
    ∃ st, encodeLoop (steadyEnv 2) (audio3.drop 44) 2
        (encodeInit (steadyEnv 2) audio3.length []) = some st
      ∧ st.trace =
        [ Ev.enc_process { buffer := FrameBuf.pcm 0, len := 2 }
            { ret := 0, encoded_bytes := 1, buffer := [170] },
          Ev.enc_process { buffer := FrameBuf.in_buf [1, 0], len := 2 }
            { ret := 0, encoded_bytes := 1, buffer := [170] } ] := by
  exact ⟨_, rfl, by decide⟩

/-- C4, at two failing inputs, with an encoder that never fails. Three PCM
bytes and frames of two bytes end with `input_offset == 4`; 32000 PCM bytes
(16000 samples) and frames of 2048 bytes end with `input_offset == 32768`, so
`write_aac_mp4` is handed 16384 samples. -/
theorem encodeLoop_input_offset_whole_frames :
    (∃ st, encodeLoop (steadyEnv 2) (audio3.drop 44) 2
        (encodeInit (steadyEnv 2) audio3.length []) = some st
      ∧ st.input_offset = 4)
    ∧ (∃ st, encodeLoop (steadyEnv 2048) (audio1s.drop 44) 32000
          (encodeInit (steadyEnv 2048) audio1s.length []) = some st
      ∧ st.input_offset = 32768
      ∧ muxCall (steadyEnv 2048) Sink.dummy_writer st
          = Ev.write_aac_mp4 Sink.dummy_writer st.chunks st.out_buffer 16000 16384 1024) := by
  refine ⟨⟨_, rfl, by decide⟩, ?_⟩
  have hlen : audio1s.length = 32044 := by
    rw [audio1s, List.length_append, List.length_replicate, List.length_replicate]
  have hrem : (encodeInit (steadyEnv 2048) audio1s.length []).remainings = 32000 := by
    show remainingsAfterHeader audio1s.length = 32000
    rw [hlen]
    norm_num [remainingsAfterHeader, SIZE_MOD]
  have hzero : (encodeInit (steadyEnv 2048) audio1s.length []).input_offset = 0 := rfl
  have hsize : (steadyEnv 2048).in_frame_size = 2048 := rfl
  obtain ⟨st, hrun, _, hoff⟩ :=
    encodeLoop_input_offset (steadyEnv 2048) (audio1s.drop 44) (by decide)
      (fun _ _ => rfl) 32000 (encodeInit (steadyEnv 2048) audio1s.length [])
      (le_of_eq hrem)
  have hoff1 : st.input_offset = 32768 := by
    rw [hoff, hzero, hrem, hsize]
  refine ⟨st, hrun, hoff1, ?_⟩
  show Ev.write_aac_mp4 Sink.dummy_writer st.chunks st.out_buffer 16000
      (st.input_offset / 2) ((steadyEnv 2048).in_frame_size / 2) = _
  rw [hoff1, hsize]

theorem Transcribe_open_failed (E : Env) (boundary key : String) (audio : List Byte)
    (fuel : Nat) (hopen : E.enc_open_ret ≠ 0) :
    Transcribe E boundary key audio fuel
      = some (requestHead key
          ++ [Ev.enc_open E.enc_open_ret, Ev.stdout "Fail to create encoder handle."]
          ++ sendFooter boundary) := by
  simp [Transcribe, hopen]

/-- C7, at the failing input: `esp_aac_enc_open` returns -1. `Transcribe` sends
the request line and the Host, Accept and Authorization lines, and then the
trailer; no Content-Length line, blank line or preamble is sent before it. -/
theorem Transcribe_trailer_without_body :
    Transcribe closedEnv "b" "k" audio3 0
      = some [ Ev.printf_s "POST %s HTTP/1.1\n" "/v1/audio/transcriptions",
               Ev.printf_s "Host: %s\n" "api.openai.com",
               Ev.println "Accept: */*",
               Ev.printf_s "Authorization: Bearer %s\n" "k",
               Ev.enc_open (-1),
               Ev.stdout "Fail to create encoder handle.",
               Ev.flush,
               Ev.print "\r\n--b--\r\n",
               Ev.flush ] := by
  rw [Transcribe_open_failed closedEnv "b" "k" audio3 0 (by decide)]
  rfl

/-! ## Witnesses -/

theorem steadyEnv_progress (f : Nat) : Progress (steadyEnv f).client_write :=
  oneByteClient_progress

theorem steadyEnv_bounded (f : Nat) : Bounded (steadyEnv f).client_write :=
  oneByteClient_bounded

theorem encodeLoop_frames_inBounds_witness :
    ∃ res evs,
      encodeLoop (steadyEnv 2) (audio3.drop 44) 3 (encodeInit (steadyEnv 2) audio3.length [])
        = some res
      ∧ res.trace = [] ++ evs
      ∧ ∀ fr o, Ev.enc_process fr o ∈ evs →
          fr.inBounds (steadyEnv 2).in_frame_size (audio3.length - 44)
          ∧ (frameBytes (audio3.drop 44) fr).length = (steadyEnv 2).in_frame_size :=
  encodeLoop_frames_inBounds (steadyEnv 2) audio3 [] 3 (by decide) (by decide) (by decide)
    (by decide)

set_option maxRecDepth 100000 in
theorem Transcribe_content_length_witness :
    Transcribe (steadyEnv 2) "b" "k" audio3 3 =
      some (requestHead "k" ++
        [ Ev.enc_open 0,
          Ev.enc_process { buffer := FrameBuf.pcm 0, len := 2 }
            { ret := 0, encoded_bytes := 1, buffer := [170] },
          Ev.enc_process { buffer := FrameBuf.in_buf [1, 0], len := 2 }
            { ret := 0, encoded_bytes := 1, buffer := [170] },
          Ev.enc_close,
          Ev.write_aac_mp4 Sink.dummy_writer [1, 1] [170, 170] 16000 2 1,
          Ev.printf_d "Content-Length: %d\n" 251,
          Ev.printf_s "Content-Type: multipart/form-data; boundary=%s\n" "b",
          Ev.println "",
          Ev.print (header "b"),
          Ev.flush,
          Ev.write_aac_mp4 Sink.adapter [1, 1] [170, 170] 16000 2 1,
          Ev.write [1, 1] 1, Ev.write [1] 1, Ev.write [170, 170] 1, Ev.write [170] 1,
          Ev.flush, Ev.flush, Ev.print (footer "b"), Ev.flush ])
    ∧ (header "b").utf8ByteSize = 238 ∧ (footer "b").utf8ByteSize = 9
    ∧ ((∀ fuel trace, Transcribe (steadyEnv 2) "b" "k" audio3 fuel = some trace →
        ∃ st pre writes,
          encodeLoop (steadyEnv 2) (audio3.drop 44) fuel
            (encodeInit (steadyEnv 2) audio3.length
              (requestHead "k" ++ [Ev.enc_open (steadyEnv 2).enc_open_ret]))
            = some st
          ∧ trace = pre
              ++ bodyHead "b"
                  ((header "b").utf8ByteSize
                    + (DummyWriter.pass (muxSpans (steadyEnv 2) st)
                        { bytes_written := 0 }).bytes_written
                    + (footer "b").utf8ByteSize)
              ++ ([Ev.print (header "b"), Ev.flush, muxCall (steadyEnv 2) Sink.adapter st]
                  ++ writes ++ [Ev.flush] ++ sendFooter "b")
          ∧ Ev.println "" ∉ pre
          ∧ (∀ e ∈ writes, e.isWrite = true)
          ∧ acceptedBytes writes = (muxSpans (steadyEnv 2) st).flatten
          ∧ sentBytes ([Ev.print (header "b"), Ev.flush,
                muxCall (steadyEnv 2) Sink.adapter st]
                ++ writes ++ [Ev.flush] ++ sendFooter "b")
              = (header "b").utf8ByteSize
                + (DummyWriter.pass (muxSpans (steadyEnv 2) st)
                    { bytes_written := 0 }).bytes_written
                + (footer "b").utf8ByteSize)
      ∧ (∀ fuel0 st,
          encodeLoop (steadyEnv 2) (audio3.drop 44) fuel0
            (encodeInit (steadyEnv 2) audio3.length
              (requestHead "k" ++ [Ev.enc_open (steadyEnv 2).enc_open_ret]))
            = some st →
          Progress (steadyEnv 2).client_write →
          ∃ N, ∀ fuel, N ≤ fuel →
            (Transcribe (steadyEnv 2) "b" "k" audio3 fuel).isSome = true)) :=
  ⟨by decide, by decide, by decide,
    Transcribe_content_length (steadyEnv 2) "b" "k" audio3 rfl (steadyEnv_bounded 2)⟩

theorem failingEnv_ok (trace : List Ev) (x : List Byte) (h : processCalls trace + 1 < 2) :
    (failingEnv.enc_process trace x).ret = ESP_AUDIO_ERR_OK
      ∧ (failingEnv.enc_process trace x).encoded_bytes ≠ 0 := by
  have h0 : processCalls trace = 0 := by omega
  simp [failingEnv, h0, ESP_AUDIO_ERR_OK]

theorem failingEnv_fail (trace : List Ev) (x : List Byte) (h : processCalls trace + 1 = 2) :
    (failingEnv.enc_process trace x).ret ≠ ESP_AUDIO_ERR_OK := by
  have h1 : processCalls trace = 1 := by omega
  simp [failingEnv, h1, ESP_AUDIO_ERR_OK]

theorem Transcribe_encoder_fails_at_witness :
    ∃ (calls : List (InFrame × OutFrame)) (last : InFrame × OutFrame) (st : EncState),
      calls.length = 2 - 1
      ∧ (∀ c ∈ calls, c.2.ret = ESP_AUDIO_ERR_OK ∧ c.2.encoded_bytes ≠ 0)
      ∧ last.2.ret ≠ ESP_AUDIO_ERR_OK
      ∧ (∀ fuel, 2 ≤ fuel → encodeLoop failingEnv (audio3.drop 44) fuel
            (encodeInit failingEnv audio3.length
              (requestHead "k" ++ [Ev.enc_open failingEnv.enc_open_ret]))
          = some st)
      ∧ st.trace = requestHead "k" ++ [Ev.enc_open failingEnv.enc_open_ret]
          ++ calls.map (fun c => Ev.enc_process c.1 c.2)
          ++ [Ev.enc_process last.1 last.2, Ev.stdout "audio encoder process failed.\n"]
      ∧ st.chunks = calls.map (fun c => c.2.encoded_bytes)
      ∧ st.input_offset = (2 - 1) * failingEnv.in_frame_size
      ∧ ∃ M, ∀ fuel, M ≤ fuel → ∃ writes,
          Transcribe failingEnv "b" "k" audio3 fuel
            = some (st.trace ++ [Ev.enc_close, muxCall failingEnv Sink.dummy_writer st]
                ++ bodyHead "b" (contentLength failingEnv "b" st)
                ++ ([Ev.print (header "b"), Ev.flush, muxCall failingEnv Sink.adapter st]
                    ++ writes ++ [Ev.flush] ++ sendFooter "b"))
          ∧ (∀ e ∈ writes, e.isWrite = true)
          ∧ acceptedBytes writes = (muxSpans failingEnv st).flatten :=
  Transcribe_encoder_fails_at failingEnv "b" "k" audio3 2 rfl (by decide) (by decide)
    failingEnv_ok failingEnv_fail oneByteClient_progress

/-! ## Reading the response -/

theorem readStringUntil_append (t : Char) (rest : List Char) :
    ∀ l : List Char, t ∉ l → readStringUntil t (l ++ t :: rest) = (l, rest) := by
  intro l
  induction l with
  | nil => intro _; simp [readStringUntil]
  | cons c l ih =>
    intro h
    have hc : c ≠ t := fun hct => h (by simp [hct])
    have hl : t ∉ l := fun hm => h (List.mem_cons_of_mem _ hm)
    simp [readStringUntil, hc, ih hl]

theorem readStringUntil_length (t : Char) :
    ∀ s : List Char, (readStringUntil t s).2.length ≤ s.length - 1 := by
  intro s
  induction s with
  | nil => simp [readStringUntil]
  | cons c s ih =>
    by_cases hc : c = t
    · simp [readStringUntil, hc]
    · simp only [readStringUntil, hc, if_false, List.length_cons]
      omega

theorem readStringUntil_filter (t : Char) :
    ∀ s : List Char,
      (readStringUntil t s).1 ++ (readStringUntil t s).2.filter (fun c => c != t)
        = s.filter (fun c => c != t) := by
  intro s
  induction s with
  | nil => simp [readStringUntil]
  | cons c s ih =>
    by_cases hc : c = t
    · simp [readStringUntil, hc]
    · simp only [readStringUntil, hc, if_false]
      have : (c != t) = true := by simpa using hc
      simp [List.filter_cons, this, ih]

/-- Once `isBody` is set, the loop appends what is left of the response without
its carriage returns. -/
theorem readBody_isBody :
    ∀ (fuel : Nat) (stream body : List Char), stream.length ≤ fuel →
      readBody fuel stream true body
        = some (body ++ stream.filter (fun c => c != '\r')) := by
  intro fuel
  induction fuel with
  | zero =>
    intro stream body h
    have : stream = [] := List.length_eq_zero.mp (by omega)
    subst this
    simp [readBody]
  | succ fuel ih =>
    intro stream body h
    by_cases hs : stream.length = 0
    · have : stream = [] := List.length_eq_zero.mp hs
      subst this
      simp [readBody]
    · have hlen := readStringUntil_length '\r' stream
      simp only [readBody, hs, ne_eq, not_false_eq_true, if_true]
      rw [ih _ _ (by omega), List.append_assoc, readStringUntil_filter]

/-- The loop before `isBody` is set, on what follows the carriage return of a
line: the line feed, the remaining header lines, the empty line, the body. -/
theorem readBody_headers (body : List Char) :
    ∀ (headers : List (List Char)) (fuel : Nat),
      (∀ h ∈ headers, h ≠ [] ∧ '\r' ∉ h) →
      ('\n' :: ((headers.map (fun h => h ++ ['\r', '\n'])).flatten
          ++ ['\r', '\n'] ++ body)).length ≤ fuel →
      readBody fuel
          ('\n' :: ((headers.map (fun h => h ++ ['\r', '\n'])).flatten
            ++ ['\r', '\n'] ++ body)) false []
        = some ('\n' :: body.filter (fun c => c != '\r')) := by
  intro headers
  induction headers with
  | nil =>
    intro fuel _ hfuel
    obtain ⟨m, rfl⟩ : ∃ m, fuel = m + 1 := ⟨fuel - 1, by simp at hfuel; omega⟩
    have hread : readStringUntil '\r' ('\n' :: '\r' :: '\n' :: body)
        = (['\n'], '\n' :: body) :=
      readStringUntil_append '\r' ('\n' :: body) ['\n'] (by decide)
    simp only [List.map_nil, List.flatten_nil, List.nil_append, List.cons_append,
      List.length_cons] at hfuel ⊢
    simp only [readBody, List.length_cons, ne_eq, Nat.add_one_ne_zero, not_false_eq_true,
      if_true, hread, Bool.false_eq_true, if_false]
    rw [readBody_isBody m _ _ (by simp; omega)]
    have : ('\n' != '\r') = true := by decide
    simp [List.filter_cons, this]
  | cons h rest ih =>
    intro fuel hall hfuel
    obtain ⟨hne, hcr⟩ := hall h (List.mem_cons_self _ _)
    obtain ⟨m, rfl⟩ : ∃ m, fuel = m + 1 := ⟨fuel - 1, by simp at hfuel; omega⟩
    have hshape : '\n' :: (((h :: rest).map (fun h => h ++ ['\r', '\n'])).flatten
          ++ ['\r', '\n'] ++ body)
        = ('\n' :: h) ++ '\r' ::
            ('\n' :: ((rest.map (fun h => h ++ ['\r', '\n'])).flatten
              ++ ['\r', '\n'] ++ body)) := by
      simp
    have hnot : '\r' ∉ '\n' :: h := by
      intro hm
      rcases List.mem_cons.mp hm with h1 | h1
      · exact absurd h1 (by decide)
      · exact hcr h1
    have hline : '\n' :: h ≠ ['\n'] := by
      intro heq
      exact hne (List.cons.inj heq).2
    rw [hshape] at hfuel ⊢
    have hread := readStringUntil_append '\r'
      ('\n' :: ((rest.map (fun h => h ++ ['\r', '\n'])).flatten ++ ['\r', '\n'] ++ body))
      ('\n' :: h) hnot
    have hlen : (('\n' :: h) ++ '\r' ::
        ('\n' :: ((rest.map (fun h => h ++ ['\r', '\n'])).flatten
          ++ ['\r', '\n'] ++ body))).length ≠ 0 := by simp
    simp only [readBody, hlen, ne_eq, not_false_eq_true, if_true, hread, Bool.false_eq_true,
      if_false, hline]
    apply ih m (fun h1 hm => hall h1 (List.mem_cons_of_mem _ hm))
    simp only [List.length_append, List.length_cons] at hfuel ⊢
    omega

/-- C10, as amended. For a response made of a status line and header lines
without carriage returns (the header lines not empty, the status line not a
lone line feed), each ended by CRLF, then the empty line, then the body, the
response loop returns, and the text it hands to the JSON parser is the line
feed of the empty line followed by the characters of the body other than
carriage returns, in order; no character of the status line or of a header
line is in it. -/
theorem readBody_response (status : List Char) (headers : List (List Char))
    (body : List Char) (fuel : Nat)
    (hstatus : '\r' ∉ status) (hstatus1 : status ≠ ['\n'])
    (hheaders : ∀ h ∈ headers, h ≠ [] ∧ '\r' ∉ h)
    (hfuel : (httpResponse status headers body).length ≤ fuel) :
    readBody fuel (httpResponse status headers body) false []
      = some ('\n' :: body.filter (fun c => c != '\r')) := by
  have hshape : httpResponse status headers body
      = status ++ '\r' ::
          ('\n' :: ((headers.map (fun h => h ++ ['\r', '\n'])).flatten
            ++ ['\r', '\n'] ++ body)) := by
    simp [httpResponse]
  rw [hshape] at hfuel ⊢
  obtain ⟨m, rfl⟩ : ∃ m, fuel = m + 1 := ⟨fuel - 1, by simp at hfuel; omega⟩
  have hread := readStringUntil_append '\r'
    ('\n' :: ((headers.map (fun h => h ++ ['\r', '\n'])).flatten ++ ['\r', '\n'] ++ body))
    status hstatus
  have hlen : (status ++ '\r' ::
      ('\n' :: ((headers.map (fun h => h ++ ['\r', '\n'])).flatten
        ++ ['\r', '\n'] ++ body))).length ≠ 0 := by simp
  simp only [readBody, hlen, ne_eq, not_false_eq_true, if_true, hread, Bool.false_eq_true,
    if_false, hstatus1]
  apply readBody_headers body headers m hheaders
  simp only [List.length_append, List.length_cons] at hfuel ⊢
  omega

theorem readBody_response_witness :
    readBody 40 (httpResponse "HTTP/1.1 200 OK".toList ["A: b".toList] "\x7b\r\n\x7d".toList)
        false []
      = some ('\n' :: "\x7b\r\n\x7d".toList.filter (fun c => c != '\r')) :=
  readBody_response "HTTP/1.1 200 OK".toList ["A: b".toList] "\x7b\r\n\x7d".toList 40
    (by decide) (by decide) (by decide) (by decide)

/-- C10, two responses on which the claim fails. For the response
`HTTP/1.1 200 OK`, CRLF, CRLF, `{}` the loop hands the three characters line
feed, `{`, `}` to the JSON parser, not the two characters of the body. For the
same head and the body `a`, CRLF, `b` it hands over line feed, `a`, line feed,
`b`: the carriage return of the body is gone. -/
theorem readBody_keeps_line_feed :
    (readBody 21 (httpResponse "HTTP/1.1 200 OK".toList [] "\x7b\x7d".toList) false []
        = some ['\n', '\x7b', '\x7d']
      ∧ readBody 21 (httpResponse "HTTP/1.1 200 OK".toList [] "\x7b\x7d".toList) false []
        ≠ some "\x7b\x7d".toList)
    ∧ (readBody 23 (httpResponse "HTTP/1.1 200 OK".toList [] "a\r\nb".toList) false []
        = some ['\n', 'a', '\n', 'b']
      ∧ readBody 23 (httpResponse "HTTP/1.1 200 OK".toList [] "a\r\nb".toList) false []
        ≠ some "a\r\nb".toList) := by
  refine ⟨⟨?_, ?_⟩, ⟨?_, ?_⟩⟩ <;> decide

end Whisper
